import Mathlib

/-!
Shallow embedding of the one-tab-manager storage core.

Sources embedded here:
- `storage.ts`: `getSavedTabs`, `saveTabs`, `deleteTab`, `clearAllTabs`
  over the key `"savedTabs"` of `chrome.storage.local`;
- `background.ts`: `performBackup` copying the live collection to the
  key `"savedTabs_backup"`.

Modelling decisions:
- `chrome.storage.local`, restricted to the two keys the program uses, is a
  `LocalStorage` record of two `Option (List SavedTab)` slots (`none` = the
  key was never written, mirroring `result[STORAGE_KEY] || []`).
- `Array.prototype.sort` with the comparator `(a, b) => b.savedAt - a.savedAt`
  is, by the ECMAScript 2019 stability requirement, the unique stable sort
  descending by `savedAt`; it is modelled by `List.insertionSort tabLE`,
  which Mathlib documents as stable.
- `Date.now()` is an explicit `now : Int` argument; the per-element
  `Math.random().toString(36).substring(2, 9)` suffix is an oracle
  `rand : Nat → String` indexed by the element's position in the batch.
- `saveTabs` returns the updated storage paired with
  `uniqueNewTabs.length`, the count the source computes and logs
  (the TypeScript promise itself resolves with no value).
-/

/-- One saved tab record, as in `types.ts` / `background.ts`:
`{ id, url, title, favIconUrl?, savedAt }`. -/
structure SavedTab where
  id : String
  url : String
  title : String
  favIconUrl : Option String
  savedAt : Int
deriving DecidableEq, Repr

/-- A candidate passed to `saveTabs`: `Omit<SavedTab, "id" | "savedAt">`. -/
structure TabToSave where
  url : String
  title : String
  favIconUrl : Option String
deriving DecidableEq, Repr

/-- `chrome.storage.local`, restricted to the two keys the program touches:
`"savedTabs"` (the live collection) and `"savedTabs_backup"`.
`none` models a key that was never written (or was removed). -/
structure LocalStorage where
  savedTabs : Option (List SavedTab)
  savedTabsBackup : Option (List SavedTab)
deriving DecidableEq, Repr

/-- The raw value stored under the live key, with `result[STORAGE_KEY] || []`
reading absence as the empty list. -/
def rawTabs (s : LocalStorage) : List SavedTab :=
  s.savedTabs.getD []

/-- The order the comparator `(a, b) => b.savedAt - a.savedAt` sorts into:
`a` may come before `b` when `b.savedAt ≤ a.savedAt` (descending). -/
def tabLE (a b : SavedTab) : Prop :=
  b.savedAt ≤ a.savedAt

instance : DecidableRel tabLE := fun a b => Int.decLe b.savedAt a.savedAt

instance : IsTotal SavedTab tabLE := ⟨fun a b => Int.le_total b.savedAt a.savedAt⟩

instance : IsTrans SavedTab tabLE := ⟨fun _ _ _ h₁ h₂ => le_trans h₂ h₁⟩

/-- `getSavedTabs` of `storage.ts`: read the live key (empty if never
written) and sort by `savedAt` descending. -/
def getSavedTabs (s : LocalStorage) : List SavedTab :=
  List.insertionSort tabLE (rawTabs s)

/-- The id `` `${now}-${index}-${randStr}` `` that `saveTabs` assigns. -/
def mkTabId (now : Int) (index : Nat) (randStr : String) : String :=
  toString now ++ "-" ++ Nat.repr index ++ "-" ++ randStr

/-- The record `saveTabs` builds for one candidate:
`{ ...tab, id: `${now}-${index}-${random}`, savedAt: now }`. -/
def mkSavedTab (tab : TabToSave) (now : Int) (index : Nat) (randStr : String) : SavedTab :=
  { id := mkTabId now index randStr
    url := tab.url
    title := tab.title
    favIconUrl := tab.favIconUrl
    savedAt := now }

/-- `Array.prototype.map` with the element's index, as in
`tabsToSave.map((tab, index) => ...)`. -/
def mapIdx (f : Nat → TabToSave → SavedTab) : Nat → List TabToSave → List SavedTab
  | _, [] => []
  | i, tab :: rest => f i tab :: mapIdx f (i + 1) rest

/-- The `newTabs` array of `saveTabs`: each candidate with its fresh id and
the shared timestamp `now`. -/
def mkNewTabs (tabsToSave : List TabToSave) (now : Int) (rand : Nat → String) :
    List SavedTab :=
  mapIdx (fun i tab => mkSavedTab tab now i (rand i)) 0 tabsToSave

/-- The `uniqueNewTabs` array of `saveTabs`: new records whose `url` does not
occur (by `===` on strings) among `existingTabs`. -/
def uniqueNewTabs (tabsToSave : List TabToSave) (now : Int) (rand : Nat → String)
    (existingTabs : List SavedTab) : List SavedTab :=
  (mkNewTabs tabsToSave now rand).filter
    (fun newTab => !(existingTabs.any (fun existingTab => existingTab.url == newTab.url)))

/-- `saveTabs` of `storage.ts`: read the sorted collection, build the new
records, drop the ones whose url already exists, prepend the survivors and
write the merge back. The returned `Nat` is `uniqueNewTabs.length`, the
count the source computes and logs. -/
def saveTabs (tabsToSave : List TabToSave) (now : Int) (rand : Nat → String)
    (s : LocalStorage) : LocalStorage × Nat :=
  let existingTabs := getSavedTabs s
  let survivors := uniqueNewTabs tabsToSave now rand existingTabs
  let updatedTabs := survivors ++ existingTabs
  ({ s with savedTabs := some updatedTabs }, survivors.length)

/-- `deleteTab` of `storage.ts`: read the sorted collection, drop every
record whose `id` equals `tabId`, write the rest back. -/
def deleteTab (tabId : String) (s : LocalStorage) : LocalStorage :=
  let existingTabs := getSavedTabs s
  let updatedTabs := existingTabs.filter (fun tab => tab.id != tabId)
  { s with savedTabs := some updatedTabs }

/-- `clearAllTabs` of `storage.ts`: `chrome.storage.local.remove(STORAGE_KEY)`. -/
def clearAllTabs (s : LocalStorage) : LocalStorage :=
  { s with savedTabs := none }

/-- `performBackup` of `background.ts`: read the sorted live collection; when
it is non-empty copy it to the backup key, otherwise do nothing. -/
def performBackup (s : LocalStorage) : LocalStorage :=
  let tabs := getSavedTabs s
  if tabs.length > 0 then { s with savedTabsBackup := some tabs } else s

/-- One storage operation of a save/delete history. A save carries its
`Date.now()` value and its `Math.random()` oracle. -/
inductive Op where
  | save (tabsToSave : List TabToSave) (now : Int) (rand : Nat → String)
  | delete (tabId : String)

/-- Run one operation against the store. -/
def applyOp (s : LocalStorage) : Op → LocalStorage
  | .save tabsToSave now rand => (saveTabs tabsToSave now rand s).1
  | .delete tabId => deleteTab tabId s

/-- Run a whole history of save/delete operations. -/
def runOps (s : LocalStorage) (ops : List Op) : LocalStorage :=
  ops.foldl applyOp s

/-- Reference ledger for the spec's invariant, written from its words: a save
adds the records built at that call that survive the url dedup against the
records currently alive, a delete removes the records bearing the given id;
records are never modified after creation. -/
def specLiveStep (live : List SavedTab) : Op → List SavedTab
  | .save tabsToSave now rand => uniqueNewTabs tabsToSave now rand live ++ live
  | .delete tabId => live.filter (fun tab => tab.id != tabId)

/-- The records added and not yet deleted after a history of operations,
each carrying the id and savedAt assigned at its creating save call. -/
def specLive (live : List SavedTab) (ops : List Op) : List SavedTab :=
  ops.foldl specLiveStep live

/-- Numeric value of a decimal digit character. -/
def charVal (c : Char) : Nat :=
  c.toNat - 48

/-- Numeric value of a decimal digit string, most significant digit first. -/
def listVal (l : List Char) : Nat :=
  l.foldl (fun a c => 10 * a + charVal c) 0

/-! Helper lemmas about the decimal representation `Nat.repr`, used to show
the ids assigned within one `saveTabs` call are pairwise distinct. -/

theorem digitChar_ne_dash {m : Nat} (h : m < 10) : Nat.digitChar m ≠ '-' := by
  interval_cases m <;> decide

theorem charVal_digitChar {m : Nat} (h : m < 10) : charVal (Nat.digitChar m) = m := by
  interval_cases m <;> decide

theorem toDigitsCore_acc (fuel : Nat) :
    ∀ (n : Nat) (ds : List Char),
      Nat.toDigitsCore 10 fuel n ds = Nat.toDigitsCore 10 fuel n [] ++ ds := by
  induction fuel with
  | zero => intro n ds; simp [Nat.toDigitsCore]
  | succ fuel ih =>
    intro n ds
    simp only [Nat.toDigitsCore]
    by_cases h : n / 10 = 0
    · simp [h]
    · simp only [h, if_false]
      rw [ih (n / 10) (Nat.digitChar (n % 10) :: ds), ih (n / 10) [Nat.digitChar (n % 10)]]
      simp

theorem toDigitsCore_fuel :
    ∀ (n f₁ f₂ : Nat) (ds : List Char), n < f₁ → n < f₂ →
      Nat.toDigitsCore 10 f₁ n ds = Nat.toDigitsCore 10 f₂ n ds := by
  intro n
  induction n using Nat.strong_induction_on with
  | _ n ih =>
    intro f₁ f₂ ds h₁ h₂
    match f₁, f₂ with
    | g₁ + 1, g₂ + 1 =>
      simp only [Nat.toDigitsCore]
      by_cases h : n / 10 = 0
      · simp [h]
      · simp only [h, if_false]
        exact ih (n / 10) (by omega) g₁ g₂ _ (by omega) (by omega)

theorem dash_not_mem_toDigitsCore (fuel : Nat) :
    ∀ (n : Nat) (ds : List Char), '-' ∉ ds → '-' ∉ Nat.toDigitsCore 10 fuel n ds := by
  induction fuel with
  | zero => intro n ds h; simpa [Nat.toDigitsCore] using h
  | succ fuel ih =>
    intro n ds h
    have hd : '-' ∉ (Nat.digitChar (n % 10) :: ds) := by
      intro hm
      rcases List.mem_cons.mp hm with hm | hm
      · exact digitChar_ne_dash (Nat.mod_lt _ (by omega)) hm.symm
      · exact h hm
    simp only [Nat.toDigitsCore]
    by_cases hz : n / 10 = 0
    · simpa [hz] using hd
    · simpa [hz] using ih (n / 10) _ hd

theorem dash_not_mem_toDigits (n : Nat) : '-' ∉ Nat.toDigits 10 n :=
  dash_not_mem_toDigitsCore (n + 1) n [] (by simp)

theorem listVal_append_one (l : List Char) (c : Char) :
    listVal (l ++ [c]) = 10 * listVal l + charVal c := by
  simp [listVal, List.foldl_append]

theorem listVal_toDigits : ∀ n : Nat, listVal (Nat.toDigits 10 n) = n := by
  intro n
  induction n using Nat.strong_induction_on with
  | _ n ih =>
    show listVal (Nat.toDigitsCore 10 (n + 1) n []) = n
    simp only [Nat.toDigitsCore]
    by_cases h : n / 10 = 0
    · simp only [h, if_true]
      have h10 : n < 10 := by omega
      have hm : n % 10 = n := by omega
      simp [listVal, hm, charVal_digitChar h10]
    · simp only [h, if_false]
      rw [toDigitsCore_acc, toDigitsCore_fuel (n / 10) n (n / 10 + 1) [] (by omega) (by omega)]
      have hv : listVal (Nat.toDigits 10 (n / 10)) = n / 10 := ih (n / 10) (by omega)
      rw [show Nat.toDigitsCore 10 (n / 10 + 1) (n / 10) [] = Nat.toDigits 10 (n / 10) from rfl]
      rw [listVal_append_one, hv, charVal_digitChar (Nat.mod_lt _ (by omega))]
      omega

theorem toDigits_inj {m n : Nat} (h : Nat.toDigits 10 m = Nat.toDigits 10 n) : m = n := by
  calc m = listVal (Nat.toDigits 10 m) := (listVal_toDigits m).symm
    _ = listVal (Nat.toDigits 10 n) := by rw [h]
    _ = n := listVal_toDigits n

theorem sep_inj :
    ∀ (a₁ a₂ b₁ b₂ : List Char), '-' ∉ a₁ → '-' ∉ a₂ →
      a₁ ++ '-' :: b₁ = a₂ ++ '-' :: b₂ → a₁ = a₂ ∧ b₁ = b₂ := by
  intro a₁
  induction a₁ with
  | nil =>
    intro a₂ b₁ b₂ _ h₂ h
    cases a₂ with
    | nil => simpa using h
    | cons c a₂ =>
      rw [List.nil_append, List.cons_append] at h
      have hc : c = '-' := (List.cons.injEq .. ▸ h).1.symm
      exact absurd (hc ▸ List.mem_cons_self c a₂) h₂
  | cons c a₁ ih =>
    intro a₂ b₁ b₂ h₁ h₂ h
    cases a₂ with
    | nil =>
      rw [List.cons_append, List.nil_append] at h
      have hc : c = '-' := (List.cons.injEq .. ▸ h).1
      exact absurd (hc ▸ List.mem_cons_self c a₁) h₁
    | cons d a₂ =>
      rw [List.cons_append, List.cons_append] at h
      have hcd := (List.cons.injEq .. ▸ h).1
      have ht := (List.cons.injEq .. ▸ h).2
      have hrest := ih a₂ b₁ b₂ (fun hm => h₁ (List.mem_cons_of_mem c hm))
        (fun hm => h₂ (List.mem_cons_of_mem d hm)) ht
      exact ⟨by rw [hcd, hrest.1], hrest.2⟩

/-- Two ids generated in the same `saveTabs` call (same `now`) agree only
when they were generated for the same batch position. -/
theorem mkTabId_inj_index {now : Int} {i j : Nat} {ri rj : String}
    (h : mkTabId now i ri = mkTabId now j rj) : i = j := by
  have hdata := congrArg String.data h
  have hdash : ("-" : String).data = ['-'] := rfl
  simp only [mkTabId, String.data_append, hdash, List.append_assoc, List.singleton_append]
    at hdata
  have hmid := List.append_cancel_left hdata
  have hmid₂ : (Nat.repr i).data ++ '-' :: ri.data = (Nat.repr j).data ++ '-' :: rj.data :=
    (List.cons.injEq .. ▸ hmid).2
  have hrepr : (Nat.repr i).data = (Nat.repr j).data :=
    (sep_inj _ _ _ _ (dash_not_mem_toDigits i) (dash_not_mem_toDigits j) hmid₂).1
  exact toDigits_inj hrepr

/-! Helper lemmas about the store operations. -/

theorem any_congr_of_perm {l₁ l₂ : List SavedTab} (p : SavedTab → Bool)
    (h : l₁.Perm l₂) : l₁.any p = l₂.any p := by
  cases hb : l₂.any p
  · rw [List.any_eq_false] at hb ⊢
    exact fun x hx => hb x (h.mem_iff.mp hx)
  · rw [List.any_eq_true] at hb ⊢
    obtain ⟨x, hx, hpx⟩ := hb
    exact ⟨x, h.mem_iff.mpr hx, hpx⟩

theorem getSavedTabs_perm (s : LocalStorage) : (getSavedTabs s).Perm (rawTabs s) :=
  List.perm_insertionSort tabLE (rawTabs s)

theorem uniqueNewTabs_congr (tabsToSave : List TabToSave) (now : Int) (rand : Nat → String)
    {l₁ l₂ : List SavedTab} (h : l₁.Perm l₂) :
    uniqueNewTabs tabsToSave now rand l₁ = uniqueNewTabs tabsToSave now rand l₂ :=
  List.filter_congr fun x _ => by
    rw [any_congr_of_perm (fun existingTab => existingTab.url == x.url) h]

theorem saveTabs_fst_raw (tabsToSave : List TabToSave) (now : Int) (rand : Nat → String)
    (s : LocalStorage) :
    rawTabs (saveTabs tabsToSave now rand s).1
      = uniqueNewTabs tabsToSave now rand (getSavedTabs s) ++ getSavedTabs s :=
  rfl

theorem saveTabs_fst_backup (tabsToSave : List TabToSave) (now : Int) (rand : Nat → String)
    (s : LocalStorage) :
    ((saveTabs tabsToSave now rand s).1).savedTabsBackup = s.savedTabsBackup :=
  rfl

theorem saveTabs_snd (tabsToSave : List TabToSave) (now : Int) (rand : Nat → String)
    (s : LocalStorage) :
    (saveTabs tabsToSave now rand s).2
      = (uniqueNewTabs tabsToSave now rand (getSavedTabs s)).length :=
  rfl

theorem deleteTab_raw (tabId : String) (s : LocalStorage) :
    rawTabs (deleteTab tabId s)
      = (getSavedTabs s).filter (fun tab => tab.id != tabId) :=
  rfl

theorem mem_mapIdx {f : Nat → TabToSave → SavedTab} :
    ∀ {ts : List TabToSave} {i : Nat} {x : SavedTab}, x ∈ mapIdx f i ts →
      ∃ j tab, i ≤ j ∧ tab ∈ ts ∧ x = f j tab := by
  intro ts
  induction ts with
  | nil => intro i x hx; simp [mapIdx] at hx
  | cons tab rest ih =>
    intro i x hx
    rcases List.mem_cons.mp hx with hx | hx
    · exact ⟨i, tab, le_refl i, List.mem_cons_self tab rest, hx⟩
    · obtain ⟨j, tab', hij, hmem, hx⟩ := ih hx
      exact ⟨j, tab', by omega, List.mem_cons_of_mem tab hmem, hx⟩

theorem countP_url_mapIdx (q : String → Bool) (f : Nat → TabToSave → SavedTab)
    (hf : ∀ j tab, (f j tab).url = tab.url) :
    ∀ (ts : List TabToSave) (i : Nat),
      List.countP (fun t => q t.url) (mapIdx f i ts)
        = List.countP (fun tab => q tab.url) ts := by
  intro ts
  induction ts with
  | nil => intro i; rfl
  | cons tab rest ih =>
    intro i
    simp only [mapIdx, List.countP_cons, hf, ih (i + 1)]

theorem count_mapIdx_self (f : Nat → TabToSave → SavedTab)
    (hinj : ∀ j₁ j₂ t₁ t₂, f j₁ t₁ = f j₂ t₂ → j₁ = j₂) :
    ∀ (ts : List TabToSave) (base k : Nat) (hk : k < ts.length),
      List.count (f (base + k) (ts.get ⟨k, hk⟩)) (mapIdx f base ts) = 1 := by
  intro ts
  induction ts with
  | nil => intro base k hk; exact absurd hk (by simp)
  | cons tab rest ih =>
    intro base k hk
    cases k with
    | zero =>
      show List.count (f (base + 0) tab) (f base tab :: mapIdx f (base + 1) rest) = 1
      rw [Nat.add_zero, List.count_cons]
      have hz : List.count (f base tab) (mapIdx f (base + 1) rest) = 0 := by
        rw [List.count_eq_zero]
        intro hmem
        obtain ⟨j, tab', hij, _, hx⟩ := mem_mapIdx hmem
        have : base = j := hinj _ _ _ _ hx
        omega
      simp [hz]
    | succ k =>
      show List.count (f (base + (k + 1)) (rest.get ⟨k, _⟩))
        (f base tab :: mapIdx f (base + 1) rest) = 1
      rw [List.count_cons]
      have hne : (f base tab == f (base + (k + 1)) (rest.get ⟨k, Nat.lt_of_succ_lt_succ hk⟩))
          = false := by
        rw [beq_eq_false_iff_ne]
        intro he
        have := hinj _ _ _ _ he
        omega
      rw [hne]
      have hb : base + (k + 1) = (base + 1) + k := by omega
      rw [hb, ih (base + 1) k (Nat.lt_of_succ_lt_succ hk)]
      simp

theorem nodup_ids_mapIdx (f : Nat → TabToSave → SavedTab)
    (hid : ∀ j₁ j₂ t₁ t₂, (f j₁ t₁).id = (f j₂ t₂).id → j₁ = j₂) :
    ∀ (ts : List TabToSave) (i : Nat), ((mapIdx f i ts).map SavedTab.id).Nodup := by
  intro ts
  induction ts with
  | nil => intro i; simp [mapIdx]
  | cons tab rest ih =>
    intro i
    show ((f i tab).id :: (mapIdx f (i + 1) rest).map SavedTab.id).Nodup
    rw [List.nodup_cons]
    refine ⟨?_, ih (i + 1)⟩
    intro hmem
    obtain ⟨x, hx, hxe⟩ := List.mem_map.mp hmem
    obtain ⟨j, tab', hij, _, hx'⟩ := mem_mapIdx hx
    have : j = i := hid _ _ _ _ (by rw [← hxe, hx'])
    omega

theorem mkSavedTab_inj_index {now : Int} {rand : Nat → String} :
    ∀ (j₁ j₂ : Nat) (t₁ t₂ : TabToSave),
      mkSavedTab t₁ now j₁ (rand j₁) = mkSavedTab t₂ now j₂ (rand j₂) → j₁ = j₂ :=
  fun _ _ _ _ h => mkTabId_inj_index (congrArg SavedTab.id h)

theorem savedAt_mkNewTabs (tabsToSave : List TabToSave) (now : Int) (rand : Nat → String) :
    ∀ x ∈ mkNewTabs tabsToSave now rand, x.savedAt = now := by
  intro x hx
  obtain ⟨j, tab, _, _, hx⟩ := mem_mapIdx hx
  rw [hx]
  rfl

theorem url_mkNewTabs (tabsToSave : List TabToSave) (now : Int) (rand : Nat → String) :
    ∀ x ∈ mkNewTabs tabsToSave now rand, ∃ tab ∈ tabsToSave, x.url = tab.url := by
  intro x hx
  obtain ⟨j, tab, _, hmem, hx⟩ := mem_mapIdx hx
  exact ⟨tab, hmem, by rw [hx]; rfl⟩

theorem length_mapIdx (f : Nat → TabToSave → SavedTab) :
    ∀ (ts : List TabToSave) (i : Nat), (mapIdx f i ts).length = ts.length := by
  intro ts
  induction ts with
  | nil => intro i; rfl
  | cons tab rest ih => intro i; simp [mapIdx, ih (i + 1)]

theorem saveTabs_added_count (tabsToSave : List TabToSave) (now : Int) (rand : Nat → String)
    (s : LocalStorage) :
    (saveTabs tabsToSave now rand s).2
      = List.countP (fun tab => !((rawTabs s).any (fun e => e.url == tab.url))) tabsToSave := by
  rw [saveTabs_snd, uniqueNewTabs_congr tabsToSave now rand (getSavedTabs_perm s)]
  simp only [uniqueNewTabs, mkNewTabs]
  rw [← List.countP_eq_length_filter]
  exact countP_url_mapIdx (fun u => !((rawTabs s).any (fun e => e.url == u))) _
    (fun j tab => rfl) tabsToSave 0

theorem saveTabs_length_eq (tabsToSave : List TabToSave) (now : Int) (rand : Nat → String)
    (s : LocalStorage) :
    (rawTabs (saveTabs tabsToSave now rand s).1).length
      = (rawTabs s).length + (saveTabs tabsToSave now rand s).2 := by
  rw [saveTabs_fst_raw, List.length_append, (getSavedTabs_perm s).length_eq]
  have hlen : (uniqueNewTabs tabsToSave now rand (getSavedTabs s)).length
      = (saveTabs tabsToSave now rand s).2 := (saveTabs_snd tabsToSave now rand s).symm
  omega

/-- C5: `getSavedTabs` returns the empty sequence when the live storage key
was never written, and for every store its output is sorted by `savedAt`
descending: each element's `savedAt` is at least every later element's. -/
theorem getSavedTabs_empty_and_sorted :
    (∀ backup, getSavedTabs { savedTabs := none, savedTabsBackup := backup } = [])
    ∧ (∀ s : LocalStorage,
        (getSavedTabs s).Pairwise (fun a b => b.savedAt ≤ a.savedAt)) := by
  constructor
  · intro backup; rfl
  · intro s
    exact List.sorted_insertionSort tabLE (rawTabs s)

/-- C6: the collection `saveTabs` writes back is the surviving (deduped)
new records followed by the previously existing records: the survivors form
a sublist of the batch's records (batch order preserved), they come strictly
before the old part, and the old part is a permutation of the previously
stored records (none dropped). -/
theorem saveTabs_new_before_old (tabsToSave : List TabToSave) (now : Int)
    (rand : Nat → String) (s : LocalStorage) :
    rawTabs (saveTabs tabsToSave now rand s).1
      = uniqueNewTabs tabsToSave now rand (rawTabs s) ++ getSavedTabs s
    ∧ (uniqueNewTabs tabsToSave now rand (rawTabs s)).Sublist
        (mkNewTabs tabsToSave now rand)
    ∧ (getSavedTabs s).Perm (rawTabs s) := by
  refine ⟨?_, List.filter_sublist _, getSavedTabs_perm s⟩
  rw [saveTabs_fst_raw, uniqueNewTabs_congr tabsToSave now rand (getSavedTabs_perm s)]

/-- C7: `deleteTab` removes exactly the records whose id equals the argument
and writes the result back; the backup key is untouched; and when no stored
record has the given id the stored collection is unchanged (same records
with the same fields, up to the re-sorting `getSavedTabs` applies). -/
theorem deleteTab_spec (tabId : String) (s : LocalStorage) :
    (rawTabs (deleteTab tabId s)).Perm
      ((rawTabs s).filter (fun tab => tab.id != tabId))
    ∧ (deleteTab tabId s).savedTabsBackup = s.savedTabsBackup
    ∧ ((rawTabs s).all (fun tab => tab.id != tabId) = true →
        (rawTabs (deleteTab tabId s)).Perm (rawTabs s)) := by
  have hperm : (rawTabs (deleteTab tabId s)).Perm
      ((rawTabs s).filter (fun tab => tab.id != tabId)) := by
    rw [deleteTab_raw]
    exact List.Perm.filter _ (getSavedTabs_perm s)
  refine ⟨hperm, rfl, ?_⟩
  intro hall
  have heq : (rawTabs s).filter (fun tab => tab.id != tabId) = rawTabs s :=
    List.filter_eq_self.mpr (fun x hx => (List.all_eq_true.mp hall) x hx)
  exact heq ▸ hperm

/-- C8: a backup run never touches the live key; when the live collection
is non-empty the backup key is set to a copy of the live collection (the
sorted view, a permutation of the stored records); when the live collection
is empty nothing at all is written, so the whole store is unchanged. -/
theorem performBackup_spec (s : LocalStorage) :
    (performBackup s).savedTabs = s.savedTabs
    ∧ (rawTabs s ≠ [] →
        (performBackup s).savedTabsBackup = some (getSavedTabs s)
        ∧ (getSavedTabs s).Perm (rawTabs s))
    ∧ (rawTabs s = [] → performBackup s = s) := by
  by_cases hr : rawTabs s = []
  · have hg : getSavedTabs s = [] := by
      simp only [getSavedTabs, hr]
      rfl
    have hpb : performBackup s = s := by
      simp [performBackup, hg]
    exact ⟨by rw [hpb], fun h => absurd hr h, fun _ => hpb⟩
  · have hlen : 0 < (getSavedTabs s).length := by
      rw [(getSavedTabs_perm s).length_eq]
      exact List.length_pos.mpr hr
    have hpb : performBackup s = { s with savedTabsBackup := some (getSavedTabs s) } := by
      simp only [performBackup]
      rw [if_pos hlen]
    exact ⟨by rw [hpb], fun _ => ⟨by rw [hpb], getSavedTabs_perm s⟩, fun h => absurd h hr⟩

/-- C2: `saveTabs` reports (computes and logs) the number of records it
actually added after dedup: the count of candidates whose url does not occur
in the stored collection at call time, which is also exactly how much the
stored collection grows. -/
theorem saveTabs_count_spec (tabsToSave : List TabToSave) (now : Int)
    (rand : Nat → String) (s : LocalStorage) :
    (saveTabs tabsToSave now rand s).2
      = List.countP (fun tab => !((rawTabs s).any (fun e => e.url == tab.url))) tabsToSave
    ∧ (rawTabs (saveTabs tabsToSave now rand s).1).length
      = (rawTabs s).length + (saveTabs tabsToSave now rand s).2 :=
  ⟨saveTabs_added_count tabsToSave now rand s, saveTabs_length_eq tabsToSave now rand s⟩

/-- C9: all records built by one `saveTabs` call share the call's `now` as
their `savedAt`, their ids are pairwise distinct (each embeds the timestamp,
the batch position and the random suffix), and there is one record per
candidate. -/
theorem saveTabs_batch_savedAt_and_ids (tabsToSave : List TabToSave) (now : Int)
    (rand : Nat → String) :
    (∀ x ∈ mkNewTabs tabsToSave now rand, x.savedAt = now)
    ∧ ((mkNewTabs tabsToSave now rand).map SavedTab.id).Nodup
    ∧ (mkNewTabs tabsToSave now rand).length = tabsToSave.length := by
  refine ⟨savedAt_mkNewTabs tabsToSave now rand, ?_, length_mapIdx _ tabsToSave 0⟩
  exact nodup_ids_mapIdx _ (fun j₁ j₂ t₁ t₂ h => mkTabId_inj_index h) tabsToSave 0

/-- C10: `saveTabs` and `deleteTab` write the live key on every call, even
when nothing is added (every candidate's url already stored) or nothing is
removed (no id matches): the written value is the savedAt-descending-sorted
snapshot returned by `getSavedTabs`, so a logically no-op call still replaces
the stored value; concretely, on a store holding records with savedAt
3, 5, 3 a no-op delete rewrites the stored sequence, moving the records with
equal savedAt 3 to new positions. -/
theorem writeback_unconditional :
    (∀ (tabsToSave : List TabToSave) (now : Int) (rand : Nat → String) (s : LocalStorage),
      (∀ tab ∈ tabsToSave, (rawTabs s).any (fun e => e.url == tab.url) = true) →
        ((saveTabs tabsToSave now rand s).1).savedTabs
          = some (List.insertionSort tabLE (rawTabs s)))
    ∧ (∀ (tabId : String) (s : LocalStorage),
        (rawTabs s).all (fun tab => tab.id != tabId) = true →
          (deleteTab tabId s).savedTabs = some (List.insertionSort tabLE (rawTabs s)))
    ∧ (deleteTab "x"
        { savedTabs := some [⟨"n", "un", "t", none, 3⟩, ⟨"o", "uo", "t", none, 5⟩,
            ⟨"m", "um", "t", none, 3⟩],
          savedTabsBackup := none }).savedTabs
      = some [⟨"o", "uo", "t", none, 5⟩, ⟨"n", "un", "t", none, 3⟩,
          ⟨"m", "um", "t", none, 3⟩] := by
  refine ⟨?_, ?_, by decide⟩
  · intro tabsToSave now rand s hdup
    have h1 : uniqueNewTabs tabsToSave now rand (getSavedTabs s) = [] := by
      rw [uniqueNewTabs_congr tabsToSave now rand (getSavedTabs_perm s)]
      apply List.filter_eq_nil_iff.mpr
      intro x hx
      obtain ⟨tab, hmem, hurl⟩ := url_mkNewTabs tabsToSave now rand x hx
      rw [hurl, hdup tab hmem]
      decide
    have h2 : ((saveTabs tabsToSave now rand s).1).savedTabs
        = some (uniqueNewTabs tabsToSave now rand (getSavedTabs s) ++ getSavedTabs s) := rfl
    rw [h2, h1, List.nil_append]
    rfl
  · intro tabId s hall
    have h2 : (deleteTab tabId s).savedTabs
        = some ((getSavedTabs s).filter (fun tab => tab.id != tabId)) := rfl
    have h3 : (getSavedTabs s).filter (fun tab => tab.id != tabId) = getSavedTabs s :=
      List.filter_eq_self.mpr (fun x hx =>
        (List.all_eq_true.mp hall) x ((getSavedTabs_perm s).mem_iff.mp hx))
    rw [h2, h3]
    rfl

/-- C4: dedup never looks inside the incoming batch: against a store holding
no record with url `u`, a batch of two candidates both carrying url `u` is
persisted whole — the reported count is 2 and the stored collection gains
two records with that same url. -/
theorem saveTabs_intra_batch_no_dedup (s : LocalStorage) (now : Int)
    (rand : Nat → String) (u t₁ t₂ : String) (f₁ f₂ : Option String)
    (hfresh : (rawTabs s).any (fun e => e.url == u) = false) :
    (saveTabs [⟨u, t₁, f₁⟩, ⟨u, t₂, f₂⟩] now rand s).2 = 2
    ∧ List.countP (fun e => e.url == u)
        (rawTabs (saveTabs [⟨u, t₁, f₁⟩, ⟨u, t₂, f₂⟩] now rand s).1)
      = List.countP (fun e => e.url == u) (rawTabs s) + 2
    ∧ (rawTabs (saveTabs [⟨u, t₁, f₁⟩, ⟨u, t₂, f₂⟩] now rand s).1).length
      = (rawTabs s).length + 2 := by
  have hex : (getSavedTabs s).any (fun e => e.url == u) = false := by
    rw [any_congr_of_perm _ (getSavedTabs_perm s)]
    exact hfresh
  have huNT : uniqueNewTabs [⟨u, t₁, f₁⟩, ⟨u, t₂, f₂⟩] now rand (getSavedTabs s)
      = mkNewTabs [⟨u, t₁, f₁⟩, ⟨u, t₂, f₂⟩] now rand := by
    apply List.filter_eq_self.mpr
    intro x hx
    obtain ⟨tab, hmem, hurl⟩ := url_mkNewTabs _ now rand x hx
    have htu : tab.url = u := by
      rcases List.mem_cons.mp hmem with h | h
      · rw [h]
      · rw [List.mem_singleton.mp h]
    rw [hurl, htu, hex]
    decide
  have hsnd : (saveTabs [⟨u, t₁, f₁⟩, ⟨u, t₂, f₂⟩] now rand s).2 = 2 := by
    rw [saveTabs_snd, huNT]
    rfl
  refine ⟨hsnd, ?_, ?_⟩
  · rw [saveTabs_fst_raw, List.countP_append, huNT,
      (getSavedTabs_perm s).countP_eq (fun e => e.url == u)]
    have hcp : List.countP (fun e => e.url == u)
        (mkNewTabs [⟨u, t₁, f₁⟩, ⟨u, t₂, f₂⟩] now rand) = 2 := by
      simp [mkNewTabs, mapIdx, mkSavedTab, List.countP_cons]
    omega
  · have := saveTabs_length_eq [⟨u, t₁, f₁⟩, ⟨u, t₂, f₂⟩] now rand s
    omega

/-- Closed instance of C4's theorem: saving two candidates with the same url
against the never-written store yields a reported count of 2. -/
theorem saveTabs_intra_batch_no_dedup_witness :
    (saveTabs [⟨"u", "a", none⟩, ⟨"u", "b", none⟩] 0 (fun _ => "r")
      { savedTabs := none, savedTabsBackup := none }).2 = 2 :=
  (saveTabs_intra_batch_no_dedup { savedTabs := none, savedTabsBackup := none }
    0 (fun _ => "r") "u" "a" "b" none none (by decide)).1

/-- C3: per-candidate dedup against the stored collection: the record built
for a candidate whose url already occurs (exact, case-sensitive string
equality) in the store contributes nothing to the written collection, while
the record of a candidate with an unseen url occurs exactly once more than
before; the collection size grows by exactly one per fresh-url candidate. -/
theorem saveTabs_dedup_per_candidate (tabsToSave : List TabToSave) (now : Int)
    (rand : Nat → String) (s : LocalStorage) (i : Nat) (hi : i < tabsToSave.length) :
    ((rawTabs s).any (fun e => e.url == (tabsToSave.get ⟨i, hi⟩).url) = true →
      List.count (mkSavedTab (tabsToSave.get ⟨i, hi⟩) now i (rand i))
        (rawTabs (saveTabs tabsToSave now rand s).1)
      = List.count (mkSavedTab (tabsToSave.get ⟨i, hi⟩) now i (rand i)) (rawTabs s))
    ∧ ((rawTabs s).any (fun e => e.url == (tabsToSave.get ⟨i, hi⟩).url) = false →
      List.count (mkSavedTab (tabsToSave.get ⟨i, hi⟩) now i (rand i))
        (rawTabs (saveTabs tabsToSave now rand s).1)
      = List.count (mkSavedTab (tabsToSave.get ⟨i, hi⟩) now i (rand i)) (rawTabs s) + 1)
    ∧ (rawTabs (saveTabs tabsToSave now rand s).1).length
      = (rawTabs s).length
        + List.countP (fun tab => !((rawTabs s).any (fun e => e.url == tab.url)))
            tabsToSave := by
  have hone : List.count (mkSavedTab (tabsToSave.get ⟨i, hi⟩) now i (rand i))
      (mkNewTabs tabsToSave now rand) = 1 := by
    have h := count_mapIdx_self (fun j tab => mkSavedTab tab now j (rand j))
      mkSavedTab_inj_index tabsToSave 0 i hi
    rw [Nat.zero_add] at h
    exact h
  have hsplit : rawTabs (saveTabs tabsToSave now rand s).1
      = uniqueNewTabs tabsToSave now rand (getSavedTabs s) ++ getSavedTabs s :=
    saveTabs_fst_raw tabsToSave now rand s
  have hex : List.count (mkSavedTab (tabsToSave.get ⟨i, hi⟩) now i (rand i))
      (getSavedTabs s)
      = List.count (mkSavedTab (tabsToSave.get ⟨i, hi⟩) now i (rand i)) (rawTabs s) :=
    (getSavedTabs_perm s).count_eq _
  have hq : (getSavedTabs s).any
        (fun e => e.url == (mkSavedTab (tabsToSave.get ⟨i, hi⟩) now i (rand i)).url)
      = (rawTabs s).any (fun e => e.url == (tabsToSave.get ⟨i, hi⟩).url) := by
    rw [any_congr_of_perm _ (getSavedTabs_perm s)]
    rfl
  refine ⟨?_, ?_, ?_⟩
  · intro hdup
    have hqa := hq.trans hdup
    have hnot : mkSavedTab (tabsToSave.get ⟨i, hi⟩) now i (rand i)
        ∉ uniqueNewTabs tabsToSave now rand (getSavedTabs s) := by
      intro hmem
      have h5 : (!((getSavedTabs s).any
          (fun e =>
            e.url == (mkSavedTab (tabsToSave.get ⟨i, hi⟩) now i (rand i)).url)))
          = true := (List.mem_filter.mp hmem).2
      rw [hqa] at h5
      simp at h5
    rw [hsplit, List.count_append, List.count_eq_zero.mpr hnot, hex]
    omega
  · intro hfr
    have hqb := hq.trans hfr
    have hpt : (!((getSavedTabs s).any
        (fun e => e.url == (mkSavedTab (tabsToSave.get ⟨i, hi⟩) now i (rand i)).url)))
        = true := by
      rw [hqb]
      rfl
    have hcf : List.count (mkSavedTab (tabsToSave.get ⟨i, hi⟩) now i (rand i))
        (uniqueNewTabs tabsToSave now rand (getSavedTabs s))
        = List.count (mkSavedTab (tabsToSave.get ⟨i, hi⟩) now i (rand i))
            (mkNewTabs tabsToSave now rand) := by
      simp only [uniqueNewTabs, List.count, List.countP_filter]
      apply List.countP_congr
      intro x hx
      constructor
      · intro hand
        rw [Bool.and_eq_true] at hand
        exact hand.1
      · intro hxt
        rw [Bool.and_eq_true]
        refine ⟨hxt, ?_⟩
        have hxe : x = mkSavedTab (tabsToSave.get ⟨i, hi⟩) now i (rand i) := eq_of_beq hxt
        rw [hxe]
        exact hpt
    rw [hsplit, List.count_append, hex, hcf, hone]
    omega
  · rw [saveTabs_length_eq, saveTabs_added_count]

/-- Closed instance of C3's theorem: saving one fresh-url candidate into the
never-written store makes its record occur once. -/
theorem saveTabs_dedup_per_candidate_witness :
    List.count (mkSavedTab ⟨"a", "t", none⟩ 0 0 "r")
      (rawTabs (saveTabs [⟨"a", "t", none⟩] 0 (fun _ => "r")
        { savedTabs := none, savedTabsBackup := none }).1)
    = List.count (mkSavedTab ⟨"a", "t", none⟩ 0 0 "r")
        (rawTabs { savedTabs := none, savedTabsBackup := none }) + 1 :=
  (saveTabs_dedup_per_candidate [⟨"a", "t", none⟩] 0 (fun _ => "r")
    { savedTabs := none, savedTabsBackup := none } 0 (by decide)).2.1 (by decide)

theorem runOps_perm_specLive :
    ∀ (ops : List Op) (s : LocalStorage) (live : List SavedTab),
      (rawTabs s).Perm live → (rawTabs (runOps s ops)).Perm (specLive live ops) := by
  intro ops
  induction ops with
  | nil => intro s live h; exact h
  | cons op ops ih =>
    intro s live h
    show (rawTabs (runOps (applyOp s op) ops)).Perm (specLive (specLiveStep live op) ops)
    apply ih
    cases op with
    | save tabsToSave now rand =>
      show (rawTabs (saveTabs tabsToSave now rand s).1).Perm
        (uniqueNewTabs tabsToSave now rand live ++ live)
      have hs : (getSavedTabs s).Perm live := (getSavedTabs_perm s).trans h
      rw [saveTabs_fst_raw, uniqueNewTabs_congr tabsToSave now rand hs]
      exact List.Perm.append_left _ hs
    | delete tabId =>
      show (rawTabs (deleteTab tabId s)).Perm
        (live.filter (fun tab => tab.id != tabId))
      rw [deleteTab_raw]
      exact List.Perm.filter _ ((getSavedTabs_perm s).trans h)

/-- C1: after any history of save/delete operations started from the empty
store, `getSavedTabs` returns exactly (as a permutation) the records that
were added (survived dedup at their save call) and not deleted since, each
still carrying the id and savedAt built at its creating call. -/
theorem getAll_after_ops_perm_specLive (ops : List Op) :
    (getSavedTabs (runOps { savedTabs := none, savedTabsBackup := none } ops)).Perm
      (specLive [] ops) :=
  (getSavedTabs_perm _).trans
    (runOps_perm_specLive ops { savedTabs := none, savedTabsBackup := none } []
      (List.Perm.refl []))
